import Mathlib

/-
Verification of the geocoding resolution engine (Backend/geocoding) against its
natural-language specification.

The embedding follows the Python source:
  * services/name_matcher.py        -> select_best_candidate
  * services/directional_parser.py  -> Direction, parse, split_places
  * services/external_geocoder.py   -> disambiguate_by_centroid
  * repositories/places_repository.py -> adjusted_threshold, search_by_fuzzy_name,
        find_by_coordinates, find_places_in_direction, get_children_counts_batch,
        add_to_cache
  * services/geocoding_service.py   -> aggregate_hierarchy, processSimple,
        processDirectional, geocodeLocation, geocodeBatch

Python floats that only undergo comparison, subtraction, max and mean are
modelled as rationals; abstract UUID identifiers are modelled as naturals;
Python dicts appearing as bounded caches or count maps are modelled as
insertion-ordered association lists, matching dict iteration order.
-/

set_option maxHeartbeats 1000000
set_option linter.unusedVariables false

/-- Python `max(xs, key=f)` on the non-empty list `x :: xs`: the fold keeps the
earlier element on ties and replaces the accumulator only on a strictly larger
key, which is exactly CPython behaviour (first maximal element wins). -/
def pyMaxByNE {α β : Type} [LinearOrder β] (key : α → β) (x : α) (xs : List α) : α :=
  xs.foldl (fun acc y => if key acc < key y then y else acc) x

/-- Python `min(xs, key=f)` on the non-empty list `x :: xs`: first minimal
element wins, mirroring CPython. -/
def pyMinByNE {α β : Type} [LinearOrder β] (key : α → β) (x : α) (xs : List α) : α :=
  xs.foldl (fun acc y => if key y < key acc then y else acc) x

theorem pyMaxByNE_spec {α β : Type} [LinearOrder β] (key : α → β) (x : α) (xs : List α) :
    pyMaxByNE key x xs ∈ x :: xs ∧ ∀ y ∈ x :: xs, key y ≤ key (pyMaxByNE key x xs) := by
  induction xs generalizing x with
  | nil =>
    refine ⟨List.mem_singleton.mpr rfl, ?_⟩
    intro y hy
    rcases List.mem_singleton.mp hy with rfl
    simp [pyMaxByNE]
  | cons z zs ih =>
    have hfold : pyMaxByNE key x (z :: zs) =
        pyMaxByNE key (if key x < key z then z else x) zs := by
      simp [pyMaxByNE]
    obtain ⟨hmem, hle⟩ := ih (if key x < key z then z else x)
    constructor
    · rw [hfold]
      rcases List.mem_cons.mp hmem with h | h
      · rw [h]
        by_cases hxz : key x < key z
        · simp [hxz]
        · simp [hxz]
      · exact List.mem_cons_of_mem _ (List.mem_cons_of_mem _ h)
    · intro y hy
      rw [hfold]
      have hacc_x : key x ≤ key (if key x < key z then z else x) := by
        by_cases hxz : key x < key z
        · simp [hxz]; exact le_of_lt hxz
        · simp [hxz]
      have hacc_z : key z ≤ key (if key x < key z then z else x) := by
        by_cases hxz : key x < key z
        · simp [hxz]
        · simp [hxz]; exact le_of_not_lt hxz
      have hacc : key (if key x < key z then z else x) ≤
          key (pyMaxByNE key (if key x < key z then z else x) zs) :=
        hle _ (List.mem_cons_self _ _)
      rcases List.mem_cons.mp hy with rfl | hy2
      · exact le_trans hacc_x hacc
      · rcases List.mem_cons.mp hy2 with rfl | hy3
        · exact le_trans hacc_z hacc
        · exact hle _ (List.mem_cons_of_mem _ hy3)

theorem pyMinByNE_spec {α β : Type} [LinearOrder β] (key : α → β) (x : α) (xs : List α) :
    pyMinByNE key x xs ∈ x :: xs ∧ ∀ y ∈ x :: xs, key (pyMinByNE key x xs) ≤ key y := by
  induction xs generalizing x with
  | nil =>
    refine ⟨List.mem_singleton.mpr rfl, ?_⟩
    intro y hy
    rcases List.mem_singleton.mp hy with rfl
    simp [pyMinByNE]
  | cons z zs ih =>
    have hfold : pyMinByNE key x (z :: zs) =
        pyMinByNE key (if key z < key x then z else x) zs := by
      simp [pyMinByNE]
    obtain ⟨hmem, hle⟩ := ih (if key z < key x then z else x)
    constructor
    · rw [hfold]
      rcases List.mem_cons.mp hmem with h | h
      · rw [h]
        by_cases hzx : key z < key x
        · simp [hzx]
        · simp [hzx]
      · exact List.mem_cons_of_mem _ (List.mem_cons_of_mem _ h)
    · intro y hy
      rw [hfold]
      have hacc_x : key (if key z < key x then z else x) ≤ key x := by
        by_cases hzx : key z < key x
        · simp [hzx]; exact le_of_lt hzx
        · simp [hzx]
      have hacc_z : key (if key z < key x then z else x) ≤ key z := by
        by_cases hzx : key z < key x
        · simp [hzx]
        · simp [hzx]; exact le_of_not_lt hzx
      have hacc : key (pyMinByNE key (if key z < key x then z else x) zs) ≤
          key (if key z < key x then z else x) :=
        hle _ (List.mem_cons_self _ _)
      rcases List.mem_cons.mp hy with rfl | hy2
      · exact le_trans hacc hacc_x
      · rcases List.mem_cons.mp hy2 with rfl | hy3
        · exact le_trans hacc hacc_z
        · exact hle _ (List.mem_cons_of_mem _ hy3)

/-
NameMatcher (services/name_matcher.py).

A fuzzy-search candidate row: the Python code works with dicts carrying at
least `id`, `name`, `similarity_score` and `hierarchy_level`; the `.get`
defaults never fire on rows produced by the store, so total fields are used.
-/

structure Candidate where
  id : Nat
  name : String
  similarity_score : ℚ
  hierarchy_level : Int
deriving DecidableEq, Repr

/-- Embedding of `NameMatcher._select_best_candidate` (name_matcher.py lines 109-149).
Returns `none` exactly where Python `max` would raise on an empty sequence
(empty input, or an empty tolerance-filtered list when the tolerance is
negative). The deployed configuration has `prefer_lower_levels = true` and
`similarity_tolerance = 0.05`. -/
def select_best_candidate (prefer_lower_levels : Bool) (similarity_tolerance : ℚ)
    (candidates : List Candidate) : Option Candidate :=
  match candidates with
  | [] => none
  | [c] => some c
  | c1 :: c2 :: rest =>
    if prefer_lower_levels = false then
      some (pyMaxByNE (fun x => x.similarity_score) c1 (c2 :: rest))
    else
      let best_similarity :=
        pyMaxByNE id c1.similarity_score ((c2 :: rest).map (fun x => x.similarity_score))
      let top_candidates :=
        (c1 :: c2 :: rest).filter
          (fun x => decide (best_similarity - x.similarity_score ≤ similarity_tolerance))
      match top_candidates with
      | [] => none
      | t :: ts => some (pyMaxByNE (fun x => x.hierarchy_level) t ts)

/-
PlacesRepository threshold adjustment (places_repository.py lines 43-54).
-/

/-- Dynamic threshold adjustment for short search strings performed at the top
of `PlacesRepository.search_by_fuzzy_name`. -/
def adjusted_threshold (name : String) (threshold : ℚ) : ℚ :=
  if name.length ≤ 5 then max 0.40 (threshold - 0.30)
  else if name.length ≤ 8 then max 0.50 (threshold - 0.30)
  else threshold

/-
Claim C1.
-/

/-- Claim C1 counterexample: given exact-match candidates (similarity 1.0) at
hierarchy levels 1, 2 and 3, the selector with the deployed configuration
(prefer_lower_levels = true, tolerance 0.05) returns the level-3 candidate,
not the level-2 one the claim requires. -/
theorem select_exact_levels_123_returns_level3 :
    (select_best_candidate true (1/20)
        [⟨1, "prov", 1, 1⟩, ⟨2, "dist", 1, 2⟩, ⟨3, "tehsil", 1, 3⟩]).map
        Candidate.hierarchy_level = some 3 ∧
    ¬ (select_best_candidate true (1/20)
        [⟨1, "prov", 1, 1⟩, ⟨2, "dist", 1, 2⟩, ⟨3, "tehsil", 1, 3⟩]).map
        Candidate.hierarchy_level = some 2 := by
  constructor
  · norm_num [select_best_candidate, pyMaxByNE, List.filter]
  · norm_num [select_best_candidate, pyMaxByNE, List.filter]

/-- Claim C1 (amended): with `prefer_lower_levels` set and a non-negative
similarity tolerance, the selector returns a candidate whose similarity score
is within the tolerance of the best similarity score of the list and whose
hierarchy level is maximal among all candidates within that tolerance, for
every non-empty candidate list with arbitrary mixed scores (`best` is pinned
to the maximum score by the first two conjuncts). -/
theorem select_prefers_most_specific (tol : ℚ) (cands : List Candidate)
    (htol : 0 ≤ tol) (hne : cands ≠ []) :
    ∃ best : ℚ,
      (∃ b ∈ cands, b.similarity_score = best) ∧
      (∀ c ∈ cands, c.similarity_score ≤ best) ∧
      ∃ c, select_best_candidate true tol cands = some c ∧ c ∈ cands ∧
        best - c.similarity_score ≤ tol ∧
        ∀ c' ∈ cands, best - c'.similarity_score ≤ tol →
          c'.hierarchy_level ≤ c.hierarchy_level := by
  match cands with
  | [] => exact absurd rfl hne
  | [c] =>
    refine ⟨c.similarity_score, ⟨c, List.mem_singleton.mpr rfl, rfl⟩, ?_, c, rfl,
      List.mem_singleton.mpr rfl, by simpa using htol, ?_⟩
    · intro c' hc'
      rcases List.mem_singleton.mp hc' with rfl
      exact le_refl _
    · intro c' hc' _
      rcases List.mem_singleton.mp hc' with rfl
      exact le_refl _
  | c1 :: c2 :: rest =>
    set B := pyMaxByNE id c1.similarity_score
      ((c2 :: rest).map (fun x => x.similarity_score)) with hB
    obtain ⟨hbmem, hbmax⟩ := pyMaxByNE_spec id c1.similarity_score
      ((c2 :: rest).map (fun x => x.similarity_score))
    rw [← hB] at hbmem hbmax
    have hexb : ∃ b ∈ c1 :: c2 :: rest, b.similarity_score = B := by
      rcases List.mem_cons.mp hbmem with h | h
      · exact ⟨c1, List.mem_cons_self _ _, h.symm⟩
      · obtain ⟨b, hb, hval⟩ := List.mem_map.mp h
        exact ⟨b, List.mem_cons_of_mem _ hb, hval⟩
    have hmaxall : ∀ c ∈ c1 :: c2 :: rest, c.similarity_score ≤ B := by
      intro c hc
      rcases List.mem_cons.mp hc with rfl | hc2
      · exact hbmax _ (List.mem_cons_self _ _)
      · exact hbmax _ (List.mem_cons_of_mem _
          (List.mem_map_of_mem (fun x => x.similarity_score) hc2))
    have hfilter_ne : (c1 :: c2 :: rest).filter
        (fun x => decide (B - x.similarity_score ≤ tol)) ≠ [] := by
      obtain ⟨b, hbmem2, hbeq⟩ := hexb
      intro hnil
      have hbin : b ∈ (c1 :: c2 :: rest).filter
          (fun x => decide (B - x.similarity_score ≤ tol)) := by
        apply List.mem_filter.mpr
        refine ⟨hbmem2, ?_⟩
        simp only [decide_eq_true_eq]
        rw [hbeq]
        simpa using htol
      rw [hnil] at hbin
      exact absurd hbin (List.not_mem_nil b)
    cases htop : (c1 :: c2 :: rest).filter
        (fun x => decide (B - x.similarity_score ≤ tol)) with
    | nil => exact absurd htop hfilter_ne
    | cons t ts =>
      obtain ⟨hcmem, hcmax⟩ := pyMaxByNE_spec (fun x => x.hierarchy_level) t ts
      have hinfilter : pyMaxByNE (fun x => x.hierarchy_level) t ts ∈
          (c1 :: c2 :: rest).filter (fun x => decide (B - x.similarity_score ≤ tol)) := by
        rw [htop]
        exact hcmem
      refine ⟨B, hexb, hmaxall, pyMaxByNE (fun x => x.hierarchy_level) t ts, ?_, ?_, ?_, ?_⟩
      · show select_best_candidate true tol (c1 :: c2 :: rest) = _
        unfold select_best_candidate
        simp only [Bool.true_eq_false, if_false]
        rw [← hB, htop]
      · exact (List.mem_filter.mp hinfilter).1
      · have := (List.mem_filter.mp hinfilter).2
        simpa using this
      · intro c' hc' htolc'
        have hc'in : c' ∈ t :: ts := by
          rw [← htop]
          apply List.mem_filter.mpr
          exact ⟨hc', by simpa using htolc'⟩
        exact hcmax c' hc'in

/-- Claim C1 witness: the amended theorem applied to a mixed-score list with
tolerance 0.05, where the tolerance filter is active: the best similarity is
1.0, the level-2 candidate at similarity 0.98 stays within tolerance, and the
level-3 candidate at similarity 0.90 falls outside it, so the selector
returns the level-2 candidate. -/
theorem select_prefers_most_specific_witness :
    (∃ best : ℚ,
      (∃ b ∈ [(⟨1, "prov", 1, 1⟩ : Candidate), ⟨2, "dist", 49/50, 2⟩,
          ⟨3, "tehsil", 9/10, 3⟩], b.similarity_score = best) ∧
      (∀ c ∈ [(⟨1, "prov", 1, 1⟩ : Candidate), ⟨2, "dist", 49/50, 2⟩,
          ⟨3, "tehsil", 9/10, 3⟩], c.similarity_score ≤ best) ∧
      ∃ c, select_best_candidate true (1/20)
          [⟨1, "prov", 1, 1⟩, ⟨2, "dist", 49/50, 2⟩, ⟨3, "tehsil", 9/10, 3⟩] = some c ∧
        c ∈ [(⟨1, "prov", 1, 1⟩ : Candidate), ⟨2, "dist", 49/50, 2⟩,
          ⟨3, "tehsil", 9/10, 3⟩] ∧
        best - c.similarity_score ≤ 1/20 ∧
        ∀ c' ∈ [(⟨1, "prov", 1, 1⟩ : Candidate), ⟨2, "dist", 49/50, 2⟩,
            ⟨3, "tehsil", 9/10, 3⟩],
          best - c'.similarity_score ≤ 1/20 → c'.hierarchy_level ≤ c.hierarchy_level) ∧
    (select_best_candidate true (1/20)
        [⟨1, "prov", 1, 1⟩, ⟨2, "dist", 49/50, 2⟩, ⟨3, "tehsil", 9/10, 3⟩]).map
      Candidate.hierarchy_level = some 2 := by
  constructor
  · exact select_prefers_most_specific (1/20) _ (by norm_num) (by simp)
  · norm_num [select_best_candidate, pyMaxByNE, List.filter]

/-
Claim C6.
-/

/-- Claim C6 counterexample: with configured threshold 0.30 the effective
threshold for a short string (length at most 5) is 0.40, which is strictly
greater than the unmodified 0.30 applied to a long string, so the claimed
monotonicity fails for every configured threshold below 0.40. -/
theorem threshold_not_monotone_below_040 :
    adjusted_threshold ("ab") 0.30 = 0.40 ∧
    adjusted_threshold ("abcdefghi") 0.30 = 0.30 ∧
    ¬ adjusted_threshold ("ab") 0.30 ≤ adjusted_threshold ("abcdefghi") 0.30 := by
  have hs : ("ab" : String).length ≤ 5 := by decide
  have hl5 : ¬ ("abcdefghi" : String).length ≤ 5 := by decide
  have hl8 : ¬ ("abcdefghi" : String).length ≤ 8 := by decide
  refine ⟨?_, ?_, ?_⟩
  · simp only [adjusted_threshold, if_pos hs]
    norm_num
  · simp only [adjusted_threshold, if_neg hl5, if_neg hl8]
  · simp only [adjusted_threshold, if_pos hs, if_neg hl5, if_neg hl8]
    norm_num

/-- Claim C6 (amended): the short-string adjustment is max(0.40, T - 0.30) for
length at most 5 and max(0.50, T - 0.30) for lengths 6 to 8, strings longer
than 8 use the configured threshold unmodified, and for every configured
threshold T at least 0.40 the effective threshold of a short string is at most
the effective threshold of a long string. -/
theorem threshold_adjustment_spec (T : ℚ) (s l : String)
    (hs : s.length ≤ 5) (hl : 8 < l.length) :
    adjusted_threshold s T = max 0.40 (T - 0.30) ∧
    adjusted_threshold l T = T ∧
    (0.40 ≤ T → adjusted_threshold s T ≤ adjusted_threshold l T) ∧
    ∀ m : String, 6 ≤ m.length → m.length ≤ 8 →
      adjusted_threshold m T = max 0.50 (T - 0.30) := by
  have h1 : adjusted_threshold s T = max 0.40 (T - 0.30) := by
    simp [adjusted_threshold, hs]
  have h2 : adjusted_threshold l T = T := by
    have hl5 : ¬ l.length ≤ 5 := by omega
    have hl8 : ¬ l.length ≤ 8 := by omega
    simp [adjusted_threshold, hl5, hl8]
  refine ⟨h1, h2, ?_, ?_⟩
  · intro hT
    rw [h1, h2]
    exact max_le hT (by linarith)
  · intro m hm6 hm8
    have hm5 : ¬ m.length ≤ 5 := by omega
    simp [adjusted_threshold, hm5, hm8]

/-- Claim C6 witness: the amended theorem at the default configured threshold
0.85 with a 2-character short string and a 9-character long string. -/
theorem threshold_adjustment_spec_witness :
    adjusted_threshold ("ab") 0.85 = max 0.40 (0.85 - 0.30) ∧
    adjusted_threshold ("abcdefghi") 0.85 = 0.85 ∧
    (0.40 ≤ (0.85 : ℚ) → adjusted_threshold ("ab") 0.85 ≤ adjusted_threshold ("abcdefghi") 0.85) ∧
    ∀ m : String, 6 ≤ m.length → m.length ≤ 8 →
      adjusted_threshold m 0.85 = max 0.50 (0.85 - 0.30) :=
  threshold_adjustment_spec 0.85 ("ab") "abcdefghi" (by decide) (by decide)

/-
ExternalGeocoder spatial disambiguation (external_geocoder.py lines 166-199).
Coordinates are (longitude, latitude) pairs; Python floats are modelled as
rationals (the computation is mean, subtraction, squaring and comparison).
-/

/-- Embedding of `ExternalGeocoder.disambiguate_by_centroid`: raises ValueError on an empty
candidate list (modelled as `Except.error`); returns the first candidate when
there is exactly one candidate or no context; otherwise returns the candidate
minimizing squared Euclidean distance to the arithmetic centroid of the
context, first minimizer winning as with Python `min`. -/
def disambiguate_by_centroid (candidates context_coords : List (ℚ × ℚ)) :
    Except String (ℚ × ℚ) :=
  match candidates with
  | [] => .error ("No candidates to disambiguate")
  | c0 :: rest =>
    if rest = [] ∨ context_coords = [] then .ok c0
    else
      let centroid_lon := (context_coords.map Prod.fst).sum / (context_coords.length : ℚ)
      let centroid_lat := (context_coords.map Prod.snd).sum / (context_coords.length : ℚ)
      .ok (pyMinByNE
        (fun c => (c.1 - centroid_lon) ^ 2 + (c.2 - centroid_lat) ^ 2) c0 rest)

/-
Claim C8.
-/

/-- Claim C8: the disambiguator errors on an empty candidate list, returns the
first candidate when there is a single candidate or no context, and with at
least two candidates and non-empty context returns a candidate minimizing
squared Euclidean distance to the arithmetic mean of the context. -/
theorem disambiguate_by_centroid_spec (candidates context : List (ℚ × ℚ)) :
    (candidates = [] →
      disambiguate_by_centroid candidates context = .error ("No candidates to disambiguate")) ∧
    (∀ c0 rest, candidates = c0 :: rest → (rest = [] ∨ context = []) →
      disambiguate_by_centroid candidates context = .ok c0) ∧
    (∀ c0 c1 rest, candidates = c0 :: c1 :: rest → context ≠ [] →
      ∃ c, disambiguate_by_centroid candidates context = .ok c ∧ c ∈ candidates ∧
        ∀ c' ∈ candidates,
          (c.1 - (context.map Prod.fst).sum / (context.length : ℚ)) ^ 2 +
            (c.2 - (context.map Prod.snd).sum / (context.length : ℚ)) ^ 2 ≤
          (c'.1 - (context.map Prod.fst).sum / (context.length : ℚ)) ^ 2 +
            (c'.2 - (context.map Prod.snd).sum / (context.length : ℚ)) ^ 2) := by
  refine ⟨?_, ?_, ?_⟩
  · rintro rfl
    rfl
  · rintro c0 rest rfl hor
    simp [disambiguate_by_centroid, hor]
  · rintro c0 c1 rest rfl hctx
    obtain ⟨hmem, hle⟩ := pyMinByNE_spec
      (fun c => (c.1 - (context.map Prod.fst).sum / (context.length : ℚ)) ^ 2 +
        (c.2 - (context.map Prod.snd).sum / (context.length : ℚ)) ^ 2) c0 (c1 :: rest)
    refine ⟨_, ?_, hmem, hle⟩
    simp [disambiguate_by_centroid, hctx]

/-- Claim C8 witness: for candidates [(0,0), (10,10)] and context [(1,1)] the
theorem gives a minimizer, and that minimizer is (0,0) as the spec requires. -/
theorem disambiguate_by_centroid_spec_witness :
    (∃ c, disambiguate_by_centroid [((0 : ℚ), (0 : ℚ)), (10, 10)] [((1 : ℚ), (1 : ℚ))] = .ok c ∧
      c ∈ [((0 : ℚ), (0 : ℚ)), (10, 10)] ∧
      ∀ c' ∈ [((0 : ℚ), (0 : ℚ)), (10, 10)],
        (c.1 - ([((1 : ℚ), (1 : ℚ))].map Prod.fst).sum / (([((1 : ℚ), (1 : ℚ))].length : ℚ))) ^ 2 +
          (c.2 - ([((1 : ℚ), (1 : ℚ))].map Prod.snd).sum / (([((1 : ℚ), (1 : ℚ))].length : ℚ))) ^ 2 ≤
        (c'.1 - ([((1 : ℚ), (1 : ℚ))].map Prod.fst).sum / (([((1 : ℚ), (1 : ℚ))].length : ℚ))) ^ 2 +
          (c'.2 - ([((1 : ℚ), (1 : ℚ))].map Prod.snd).sum / (([((1 : ℚ), (1 : ℚ))].length : ℚ))) ^ 2) ∧
    disambiguate_by_centroid [((0 : ℚ), (0 : ℚ)), (10, 10)] [((1 : ℚ), (1 : ℚ))] = .ok (0, 0) := by
  constructor
  · exact (disambiguate_by_centroid_spec [((0 : ℚ), (0 : ℚ)), (10, 10)]
      [((1 : ℚ), (1 : ℚ))]).2.2 (0, 0) (10, 10) [] rfl (by simp)
  · norm_num [disambiguate_by_centroid, pyMinByNE]

/-
Places and the in-memory place cache (places_repository.py).
-/

/-- A place record: abstract UUID identifiers are modelled as naturals. -/
structure Place where
  id : Nat
  name : String
  hierarchy_level : Int
  parent_id : Option Nat
deriving DecidableEq, Repr

/-- Embedding of `PlacesRepository._add_to_cache` (lines 156-163): the cache dict is
modelled as an insertion-ordered association list. When the cache is at
capacity the first (oldest-inserted) entry is deleted, then the new binding is
assigned; assignment to an existing key updates it in place, as a Python dict
does. -/
def add_to_cache (cache_maxsize : Nat) (cache : List (Nat × Place))
    (place_id : Nat) (place_data : Place) : List (Nat × Place) :=
  let cache1 := if cache_maxsize ≤ cache.length then cache.drop 1 else cache
  if (cache1.map Prod.fst).contains place_id then
    cache1.map (fun kv => if kv.1 = place_id then (place_id, place_data) else kv)
  else cache1 ++ [(place_id, place_data)]

/-- Repeated insertion into an initially empty cache. -/
def insertAll (cache_maxsize : Nat) (ids : List Nat) (data : Nat → Place) :
    List (Nat × Place) :=
  ids.foldl (fun c i => add_to_cache cache_maxsize c i (data i)) []

theorem map_fst_pair (data : Nat → Place) (l : List Nat) :
    (l.map (fun i => (i, data i))).map Prod.fst = l := by
  induction l with
  | nil => rfl
  | cons a t iht => simp [iht]

theorem add_to_cache_fresh (N : Nat) (data : Nat → Place) (cur : List Nat) (x : Nat)
    (hx : x ∉ cur) :
    add_to_cache N (cur.map (fun i => (i, data i))) x (data x) =
      ((if N ≤ cur.length then cur.drop 1 else cur) ++ [x]).map (fun i => (i, data i)) := by
  unfold add_to_cache
  have hmapdrop : (cur.map (fun i => (i, data i))).drop 1 =
      (cur.drop 1).map (fun i => (i, data i)) := by
    cases cur <;> simp
  by_cases hcase : N ≤ cur.length
  · simp only [List.length_map, if_pos hcase, hmapdrop]
    have h2 : (((cur.drop 1).map (fun i => (i, data i))).map Prod.fst).contains x = false := by
      rw [map_fst_pair]
      have hxd : x ∉ cur.drop 1 := fun hmem => hx (List.mem_of_mem_drop hmem)
      simpa using hxd
    simp only [h2, Bool.false_eq_true, if_false]
    simp
  · simp only [List.length_map, if_neg hcase]
    have h2 : ((cur.map (fun i => (i, data i))).map Prod.fst).contains x = false := by
      rw [map_fst_pair]
      simpa using hx
    simp only [h2, Bool.false_eq_true, if_false]
    simp

theorem insert_window (N : Nat) (data : Nat → Place) :
    ∀ (ids cur : List Nat), 0 < N → (cur ++ ids).Nodup → cur.length ≤ N →
    ids.foldl (fun c i => add_to_cache N c i (data i)) (cur.map (fun i => (i, data i))) =
      ((cur ++ ids).drop ((cur ++ ids).length - N)).map (fun i => (i, data i)) := by
  intro ids
  induction ids with
  | nil =>
    intro cur hN hnd hlen
    simp [Nat.sub_eq_zero_of_le hlen]
  | cons x ids ih =>
    intro cur hN hnd hlen
    have hx_notin_cur : x ∉ cur := by
      intro hx
      exact (List.disjoint_of_nodup_append hnd) hx (List.mem_cons_self x ids)
    have hfold : (x :: ids).foldl (fun c i => add_to_cache N c i (data i))
        (cur.map (fun i => (i, data i))) =
        ids.foldl (fun c i => add_to_cache N c i (data i))
          (add_to_cache N (cur.map (fun i => (i, data i))) x (data x)) := rfl
    rw [hfold, add_to_cache_fresh N data cur x hx_notin_cur]
    by_cases hcase : N ≤ cur.length
    · have hcurlen : cur.length = N := le_antisymm hlen hcase
      obtain ⟨c0, ct, rfl⟩ : ∃ c0 ct, cur = c0 :: ct := by
        cases cur with
        | nil => simp at hcurlen; omega
        | cons a l => exact ⟨a, l, rfl⟩
      rw [if_pos hcase]
      simp only [List.drop_succ_cons, List.drop_zero]
      have hnd2 : ((ct ++ [x]) ++ ids).Nodup := by
        have hsub : List.Sublist ((ct ++ [x]) ++ ids) ((c0 :: ct) ++ x :: ids) := by
          have e1 : (ct ++ [x]) ++ ids = ct ++ x :: ids := by simp
          have e2 : (c0 :: ct) ++ x :: ids = c0 :: (ct ++ x :: ids) := by simp
          rw [e1, e2]
          exact List.sublist_cons_of_sublist c0 (List.Sublist.refl _)
        exact hsub.nodup hnd
      have hlen2 : (ct ++ [x]).length ≤ N := by
        simp only [List.length_append, List.length_singleton]
        simp only [List.length_cons] at hcurlen
        omega
      rw [ih (ct ++ [x]) hN hnd2 hlen2]
      congr 1
      have e1 : (ct ++ [x]) ++ ids = ct ++ x :: ids := by
        simp
      have e2 : (c0 :: ct) ++ x :: ids = c0 :: (ct ++ x :: ids) := by
        simp
      rw [e1, e2]
      have e3 : (c0 :: (ct ++ x :: ids)).length - N = (ct ++ x :: ids).length - N + 1 := by
        simp only [List.length_cons, List.length_append] at hcurlen ⊢
        omega
      rw [e3, List.drop_succ_cons]
    · rw [if_neg hcase]
      have hnd2 : ((cur ++ [x]) ++ ids).Nodup := by
        have e1 : (cur ++ [x]) ++ ids = cur ++ x :: ids := by simp
        rw [e1]
        exact hnd
      have hlen2 : (cur ++ [x]).length ≤ N := by
        simp only [List.length_append, List.length_singleton]
        omega
      rw [ih (cur ++ [x]) hN hnd2 hlen2]
      congr 1
      simp

/-
Claim C9.
-/

/-- Claim C9: inserting a sequence of distinct place ids into an initially
empty cache of capacity N leaves exactly the most recent min(k, N) ids, in
insertion order (so eviction always removes the oldest-inserted entry), and
after every prefix of insertions at most N entries are resident. -/
theorem cache_fifo_bound (N : Nat) (ids : List Nat) (data : Nat → Place)
    (hN : 0 < N) (hnd : ids.Nodup) :
    insertAll N ids data = (ids.drop (ids.length - N)).map (fun i => (i, data i)) ∧
    ∀ k : Nat, (insertAll N (ids.take k) data).length ≤ N := by
  constructor
  · have := insert_window N data ids [] hN (by simpa using hnd) (by simp)
    simpa using this
  · intro k
    have hndk : (ids.take k).Nodup := (List.take_sublist k ids).nodup hnd
    have := insert_window N data (ids.take k) [] hN (by simpa using hndk) (by simp)
    have hh : insertAll N (ids.take k) data =
        ((ids.take k).drop ((ids.take k).length - N)).map (fun i => (i, data i)) := by
      simpa [insertAll] using this
    rw [hh]
    simp only [List.length_map, List.length_drop]
    omega

/-- Fixed payload used by the cache witness. -/
def placeW : Place := ⟨0, "w", 1, none⟩

/-- Claim C9 witness: three distinct ids into a capacity-2 cache keep only the
last two, and every prefix stays within the bound. -/
theorem cache_fifo_bound_witness :
    insertAll 2 [5, 6, 7] (fun _ => placeW) =
      ([5, 6, 7].drop ([5, 6, 7].length - 2)).map (fun i => (i, placeW)) ∧
    ∀ k : Nat, (insertAll 2 ([5, 6, 7].take k) (fun _ => placeW)).length ≤ 2 :=
  cache_fifo_bound 2 [5, 6, 7] (fun _ => placeW) (by decide) (by decide)

/-
PlacesRepository read operations (places_repository.py).

The supabase client and the Redis layer are collaborator boundaries: a cache
lookup either yields a hit (the RedisCache class catches its own transport
errors and returns None on a miss or failure) and an rpc/table call either
returns a response payload or raises, modelled as `Except`. A payload is
`some rows` when `result.data` is a non-falsy list, `none` when it is falsy or
not a list, matching the type guards in the source.
-/

structure RepoEnv where
  fuzzyCache : String → ℚ → Option (List Candidate)
  fuzzyRpc : String → ℚ → Except String (Option (List Candidate))
  pointRpc : ℚ → ℚ → Except String (Option (List Place))
  directionCache : List Nat → String → Option (List Place)
  directionRpc : List Nat → String → Except String (Option (List Place))
  childrenRpc : List Nat → Except String (Option (List (Option Nat)))

/-- Embedding of `PlacesRepository.search_by_fuzzy_name` (lines 26-88): adjust the
threshold, consult the cache, then call the store; any exception from the
store call yields an empty list. -/
def search_by_fuzzy_name (env : RepoEnv) (name : String) (threshold : ℚ) :
    List Candidate :=
  let adjusted := adjusted_threshold name threshold
  match env.fuzzyCache name adjusted with
  | some cached => cached
  | none =>
    match env.fuzzyRpc name adjusted with
    | .ok (some rows) => rows
    | .ok none => []
    | .error _ => []

/-- Embedding of `PlacesRepository.find_by_coordinates` (lines 90-118): first row of the
point-in-polygon rpc, `none` on an empty result or any exception. -/
def find_by_coordinates (env : RepoEnv) (longitude latitude : ℚ) : Option Place :=
  match env.pointRpc longitude latitude with
  | .ok (some (p :: _)) => some p
  | .ok (some []) => none
  | .ok none => none
  | .error _ => none

/-- Embedding of `PlacesRepository.find_places_in_direction` (lines 198-256): cache, then
store; any exception from the store call yields an empty list. -/
def find_places_in_direction (env : RepoEnv) (base_place_ids : List Nat)
    (direction : String) : List Place :=
  match env.directionCache base_place_ids direction with
  | some cached => cached
  | none =>
    match env.directionRpc base_place_ids direction with
    | .ok (some rows) => rows
    | .ok none => []
    | .error _ => []

/-- One step of the count accumulation in `get_children_counts_batch`: the
counts dict is an insertion-ordered association list and
`counts.get(parent, 0) + 1` either bumps the existing binding in place or
appends a fresh one. -/
def bumpCount (counts : List (Nat × Nat)) (parent : Nat) : List (Nat × Nat) :=
  if (counts.map Prod.fst).contains parent then
    counts.map (fun kv => if kv.1 = parent then (kv.1, kv.2 + 1) else kv)
  else counts ++ [(parent, 1)]

/-- Embedding of `PlacesRepository.get_children_counts_batch` (lines 282-319): empty input
short-circuits; otherwise one store query whose rows are the `parent_id`
values; any exception yields an empty map. -/
def get_children_counts_batch (env : RepoEnv) (parent_ids : List Nat) :
    List (Nat × Nat) :=
  if parent_ids = [] then []
  else
    match env.childrenRpc parent_ids with
    | .ok (some rows) =>
        rows.foldl (fun counts row =>
          match row with
          | some parent => bumpCount counts parent
          | none => counts) []
    | .ok none => []
    | .error _ => []

/-
Claim C10.
-/

/-- Claim C10: when the underlying store call raises, each repository read
returns its empty fallback (empty list, none, or empty map) instead of
propagating the exception, so a store failure is indistinguishable from an
empty result. -/
theorem repository_total_on_store_failure (env : RepoEnv) (name : String)
    (threshold lon lat : ℚ) (ids : List Nat) (dir : String) (pids : List Nat)
    (e1 e2 e3 e4 : String) :
    (env.fuzzyCache name (adjusted_threshold name threshold) = none →
      env.fuzzyRpc name (adjusted_threshold name threshold) = .error e1 →
      search_by_fuzzy_name env name threshold = []) ∧
    (env.pointRpc lon lat = .error e2 → find_by_coordinates env lon lat = none) ∧
    (env.directionCache ids dir = none → env.directionRpc ids dir = .error e3 →
      find_places_in_direction env ids dir = []) ∧
    (env.childrenRpc pids = .error e4 → get_children_counts_batch env pids = []) := by
  refine ⟨?_, ?_, ?_, ?_⟩
  · intro h1 h2
    simp [search_by_fuzzy_name, h1, h2]
  · intro h
    simp [find_by_coordinates, h]
  · intro h1 h2
    simp [find_places_in_direction, h1, h2]
  · intro h
    by_cases hp : pids = [] <;> simp [get_children_counts_batch, hp, h]

/-- Environment in which every store call raises and every cache misses. -/
def repoEnvDown : RepoEnv :=
  ⟨fun _ _ => none, fun _ _ => .error ("down"), fun _ _ => .error ("down"),
    fun _ _ => none, fun _ _ => .error ("down"), fun _ => .error ("down")⟩

/-- Claim C10 witness: with every store call raising, all four reads return
their empty fallbacks. -/
theorem repository_total_on_store_failure_witness :
    search_by_fuzzy_name repoEnvDown ("Multan") 0.85 = [] ∧
    find_by_coordinates repoEnvDown 71 30 = none ∧
    find_places_in_direction repoEnvDown [1, 2] "north" = [] ∧
    get_children_counts_batch repoEnvDown [3] = [] := by
  obtain ⟨h1, h2, h3, h4⟩ := repository_total_on_store_failure repoEnvDown ("Multan")
    0.85 71 30 [1, 2] "north" [3] "down" "down" "down" "down"
  exact ⟨h1 rfl rfl, h2 rfl, h3 rfl rfl, h4 rfl⟩

/-
GeocodingService._aggregate_hierarchy (geocoding_service.py lines 369-510).

The reference store supplies the two batch lookups the aggregation awaits:
`get_children_counts_batch` (with the Python `counts.get(parent_id, 0)`
default folded in, so `childCount` is total) and `get_by_ids_batch`.
Input places are well-formed records, on which the field-validation loop at
lines 399-412 keeps everything, so it is omitted. The Python iteration over
the `unique_parent_ids` set is modelled in first-occurrence order; on
hierarchical (acyclic) data the promotion decisions are independent of that
order. The recursion at line 508 is bounded in the source by the hierarchy
depth; it is modelled with an explicit fuel argument, and every theorem below
holds for arbitrary positive fuel because its scenarios recurse at most the
available depth.
-/

structure RefStore where
  childCount : Nat → Nat
  placeById : Nat → Option Place

/-- The `by_parent` grouping restricted to one parent: the children of `pid`
present in the list `ps`, in order. -/
def childrenOf (ps : List Place) (pid : Nat) : List Place :=
  ps.filter (fun p => decide (p.parent_id = some pid))

/-- STEP 1 (lines 430-436): every `parent_id` that is itself present in the
input set is marked for removal. -/
def step1Removals (ps : List Place) : List Nat :=
  ps.filterMap (fun p =>
    match p.parent_id with
    | some pid => if (ps.map Place.id).contains pid then some pid else none
    | none => none)

def firstDedupAux : List Nat → List Nat → List Nat
  | _, [] => []
  | seen, x :: xs =>
    if seen.contains x then firstDedupAux seen xs
    else x :: firstDedupAux (x :: seen) xs

/-- The distinct parent ids referenced by the input, in first-occurrence
order (Python collects them into a set; the store is consulted once per
distinct parent). -/
def firstDedup (l : List Nat) : List Nat := firstDedupAux [] l

/-- Embedding of `places_to_remove.discard(pid)`: the removal set is modelled as a list
with set membership semantics. -/
def removeAll (l : List Nat) (pid : Nat) : List Nat := l.filter (fun x => x != pid)

/-- STEP 2 body (lines 458-482) for a single parent id: when the parent has a
positive true child count covered by the children present, append the parent
record if absent, un-mark the parent, and mark all its present children. -/
def promoteStep (store : RefStore) (orig : List Place) :
    (List Place × List Nat) → Nat → (List Place × List Nat) :=
  fun acc pid =>
    let children_in_results := childrenOf orig pid
    let matched_count := children_in_results.length
    let total_count := store.childCount pid
    if 0 < total_count ∧ total_count ≤ matched_count then
      let vp :=
        if (acc.1.map Place.id).contains pid then acc.1
        else
          match store.placeById pid with
          | some parent_rec => acc.1 ++ [parent_rec]
          | none => acc.1
      (vp, removeAll acc.2 pid ++ children_in_results.map Place.id)
    else acc

/-- One full pass: the working list (`valid_places`, which step 2 may extend
with parent records) together with the accumulated removal marks. -/
def aggregatePass (store : RefStore) (ps : List Place) : List Place × List Nat :=
  (firstDedup (ps.filterMap Place.parent_id)).foldl (promoteStep store ps)
    (ps, step1Removals ps)

/-- Recursion guard (lines 499-504): some remaining place has its parent in
the result set. -/
def needsRecursion (aggregated : List Place) : Bool :=
  aggregated.any (fun p =>
    match p.parent_id with
    | some pid => (aggregated.map Place.id).contains pid
    | none => false)

/-- Embedding of `GeocodingService._aggregate_hierarchy`: run a pass, drop the marked
places, and recurse (line 508) when something was marked, more than one place
remains and a parent chain is still present. -/
def aggregate_hierarchy (store : RefStore) : Nat → List Place → List Place
  | 0, places => places
  | fuel + 1, places =>
    let pass := aggregatePass store places
    let aggregated := pass.1.filter (fun p => !(pass.2.contains p.id))
    if pass.2 ≠ [] ∧ 1 < aggregated.length ∧ needsRecursion aggregated = true then
      aggregate_hierarchy store fuel aggregated
    else aggregated

theorem firstDedupAux_subset (l : List Nat) :
    ∀ (seen : List Nat) (x : Nat), x ∈ firstDedupAux seen l → x ∈ l := by
  induction l with
  | nil =>
    intro seen x hx
    simp [firstDedupAux] at hx
  | cons a t ih =>
    intro seen x hx
    unfold firstDedupAux at hx
    by_cases hc : seen.contains a
    · rw [if_pos hc] at hx
      exact List.mem_cons_of_mem _ (ih seen x hx)
    · rw [if_neg hc] at hx
      rcases List.mem_cons.mp hx with rfl | hx2
      · exact List.mem_cons_self _ _
      · exact List.mem_cons_of_mem _ (ih (a :: seen) x hx2)

theorem step1Removals_eq_nil (S : List Place)
    (h : ∀ p ∈ S, ∀ pid, p.parent_id = some pid → ¬ (S.map Place.id).contains pid = true) :
    step1Removals S = [] := by
  apply List.filterMap_eq_nil_iff.mpr
  intro p hp
  cases hpar : p.parent_id with
  | none => simp [hpar]
  | some pid =>
    have hnc := h p hp pid hpar
    simp only [hpar]
    rw [if_neg hnc]

theorem promote_fold_nop (store : RefStore) (S : List Place) (parents : List Nat)
    (h : ∀ pid ∈ parents,
      ¬ (0 < store.childCount pid ∧ store.childCount pid ≤ (childrenOf S pid).length)) :
    ∀ st : List Place × List Nat, parents.foldl (promoteStep store S) st = st := by
  induction parents with
  | nil => intro st; rfl
  | cons pid rest ih =>
    intro st
    have hstep : promoteStep store S st pid = st := by
      unfold promoteStep
      rw [if_neg (h pid (List.mem_cons_self _ _))]
    rw [List.foldl_cons, hstep]
    exact ih (fun q hq => h q (List.mem_cons_of_mem _ hq)) st

/-
Claim C4.
-/

/-- Three sibling sub-districts with parent 10. -/
def childA : Place := ⟨1, "a", 3, some 10⟩

def childB : Place := ⟨2, "b", 3, some 10⟩

def childC : Place := ⟨3, "c", 3, some 10⟩

/-- District 10, itself the only child of province 20. -/
def recP : Place := ⟨10, "P", 2, some 20⟩

def recG : Place := ⟨20, "G", 1, none⟩

/-- Reference store for the idempotence counterexample: parent 10 has 3 true
children, grandparent 20 has exactly 1 true child (place 10). -/
def store4 : RefStore :=
  ⟨fun pid => if pid = 10 then 3 else if pid = 20 then 1 else 0,
    fun pid => if pid = 10 then some recP else if pid = 20 then some recG else none⟩

/-- Claim C4 counterexample: aggregating the three children of place 10 gives
[recP] (one place, so the internal recursion stops), but aggregating that
output again promotes recP to its own parent recG, so the output of
aggregation is not a fixed point. -/
theorem aggregate_not_idempotent :
    aggregate_hierarchy store4 4 [childA, childB, childC] = [recP] ∧
    aggregate_hierarchy store4 4 (aggregate_hierarchy store4 4 [childA, childB, childC]) =
      [recG] ∧
    aggregate_hierarchy store4 4 (aggregate_hierarchy store4 4 [childA, childB, childC]) ≠
      aggregate_hierarchy store4 4 [childA, childB, childC] := by
  refine ⟨by decide, by decide, by decide⟩

/-- Claim C4 (amended): aggregation is the identity, and hence idempotent, on
any set in which no place has its parent present and no referenced parent is
fully covered in the reference store; in general re-running aggregation can
collapse the set further (see the counterexample, where the promoted parent
is an only child of its own parent). -/
theorem aggregate_identity_when_no_rule_applies (store : RefStore) (S : List Place)
    (fuel : Nat)
    (h1 : ∀ p ∈ S, ∀ pid, p.parent_id = some pid → ¬ (S.map Place.id).contains pid = true)
    (h2 : ∀ pid ∈ S.filterMap Place.parent_id,
      ¬ (0 < store.childCount pid ∧ store.childCount pid ≤ (childrenOf S pid).length)) :
    aggregate_hierarchy store (fuel + 1) S = S := by
  have hpass : aggregatePass store S = (S, []) := by
    unfold aggregatePass
    rw [step1Removals_eq_nil S h1]
    exact promote_fold_nop store S _
      (fun pid hpid => h2 pid (firstDedupAux_subset _ [] pid hpid)) (S, [])
  unfold aggregate_hierarchy
  simp [hpass]

/-- Two unrelated districts of different provinces, neither fully covering. -/
def lonePlaceA : Place := ⟨5, "d1", 2, some 30⟩

def lonePlaceB : Place := ⟨6, "d2", 2, some 40⟩

/-- Store in which parents 30 and 40 each have two true children. -/
def storeLone : RefStore :=
  ⟨fun pid => if pid = 30 then 2 else if pid = 40 then 2 else 0,
    fun _ => none⟩

/-- Claim C4 witness: the amended theorem applied to two partially-covering
districts, which aggregation leaves unchanged. -/
theorem aggregate_identity_when_no_rule_applies_witness :
    aggregate_hierarchy storeLone 3 [lonePlaceA, lonePlaceB] = [lonePlaceA, lonePlaceB] :=
  aggregate_identity_when_no_rule_applies storeLone [lonePlaceA, lonePlaceB] 2
    (by decide) (by decide)

/-
Claim C5.
-/

theorem filterMap_parent_const (pid : Nat) :
    ∀ (cs : List Place), (∀ c ∈ cs, c.parent_id = some pid) →
    cs.filterMap Place.parent_id = cs.map (fun _ => pid) := by
  intro cs
  induction cs with
  | nil => intro _; rfl
  | cons c t ih =>
    intro h
    have hc := h c (List.mem_cons_self _ _)
    simp only [List.filterMap_cons, List.map_cons, hc]
    rw [ih (fun q hq => h q (List.mem_cons_of_mem _ hq))]

theorem firstDedupAux_all_seen :
    ∀ (l seen : List Nat), (∀ x ∈ l, seen.contains x = true) → firstDedupAux seen l = [] := by
  intro l
  induction l with
  | nil => intro seen _; rfl
  | cons a t ih =>
    intro seen h
    unfold firstDedupAux
    rw [if_pos (h a (List.mem_cons_self _ _))]
    exact ih seen (fun x hx => h x (List.mem_cons_of_mem _ hx))

theorem firstDedup_const_cons (pid : Nat) (l : List Nat) (hall : ∀ x ∈ l, x = pid) :
    firstDedup (pid :: l) = [pid] := by
  unfold firstDedup firstDedupAux
  have hni : (([] : List Nat).contains pid) = false := rfl
  rw [if_neg (by simp [hni])]
  rw [firstDedupAux_all_seen l [pid] (fun x hx => by simp [hall x hx])]

/-- Claim C5: for a parent with a positive true child count t in the reference
store, when the aggregation input consists exactly of some of its children
(with distinct ids, none equal to the parent), the parent is promoted and
replaces all its children exactly when the number of children present is at
least t; in particular with exactly t children present the output is the
single parent record. -/
theorem aggregate_full_coverage (store : RefStore) (pid : Nat) (prec : Place)
    (cs : List Place) (fuel : Nat)
    (hc : ∀ c ∈ cs, c.parent_id = some pid)
    (hnd : (cs.map Place.id).Nodup)
    (hnp : pid ∉ cs.map Place.id)
    (hrec : store.placeById pid = some prec)
    (hrid : prec.id = pid)
    (htpos : 0 < store.childCount pid) :
    aggregate_hierarchy store (fuel + 1) cs =
      if store.childCount pid ≤ cs.length then [prec] else cs := by
  cases cs with
  | nil =>
    have hnot : ¬ store.childCount pid ≤ ([] : List Place).length := by
      simp only [List.length_nil]
      omega
    rw [if_neg hnot]
    rfl
  | cons c0 ct =>
    have hstep1 : step1Removals (c0 :: ct) = [] := by
      apply step1Removals_eq_nil
      intro p hp pid' hpar
      have hpid : pid' = pid := by
        have hcp := hc p hp
        rw [hcp] at hpar
        exact (Option.some_inj.mp hpar).symm
      subst hpid
      intro hcontains
      exact hnp (by simpa using hcontains)
    have hfm : (c0 :: ct).filterMap Place.parent_id = (c0 :: ct).map (fun _ => pid) :=
      filterMap_parent_const pid (c0 :: ct) hc
    have hdedup : firstDedup ((c0 :: ct).map (fun _ => pid)) = [pid] := by
      simp only [List.map_cons]
      apply firstDedup_const_cons
      intro x hx
      obtain ⟨a, _, hax⟩ := List.mem_map.mp hx
      exact hax.symm
    have hchildren : childrenOf (c0 :: ct) pid = c0 :: ct := by
      apply List.filter_eq_self.mpr
      intro a ha
      simp [hc a ha]
    have hpass : aggregatePass store (c0 :: ct) =
        (if 0 < store.childCount pid ∧ store.childCount pid ≤ (c0 :: ct).length
         then ((c0 :: ct) ++ [prec], (c0 :: ct).map Place.id)
         else ((c0 :: ct), [])) := by
      unfold aggregatePass
      rw [hstep1, hfm, hdedup]
      simp only [List.foldl_cons, List.foldl_nil]
      simp only [promoteStep]
      rw [hchildren]
      by_cases hcond : 0 < store.childCount pid ∧ store.childCount pid ≤ (c0 :: ct).length
      · rw [if_pos (by simpa using hcond), if_pos hcond]
        have hcf : ((c0 :: ct).map Place.id).contains pid = false := by
          simpa using hnp
        simp only [hcf, Bool.false_eq_true, if_false, hrec]
        rfl
      · rw [if_neg (by simpa using hcond), if_neg hcond]
    by_cases hle : store.childCount pid ≤ (c0 :: ct).length
    · rw [if_pos hle]
      have hcond : 0 < store.childCount pid ∧ store.childCount pid ≤ (c0 :: ct).length :=
        ⟨htpos, hle⟩
      have hagg : ((c0 :: ct) ++ [prec]).filter
          (fun p => !(((c0 :: ct).map Place.id).contains p.id)) = [prec] := by
        rw [List.filter_append]
        have hA : (c0 :: ct).filter
            (fun p => !(((c0 :: ct).map Place.id).contains p.id)) = [] := by
          apply List.filter_eq_nil_iff.mpr
          intro a ha hcontra
          have hc2 : ((c0 :: ct).map Place.id).contains a.id = true := by
            simpa using List.mem_map_of_mem Place.id ha
          rw [hc2] at hcontra
          simp at hcontra
        have hB : ([prec] : List Place).filter
            (fun p => !(((c0 :: ct).map Place.id).contains p.id)) = [prec] := by
          have hnm : prec.id ∉ (c0 :: ct).map Place.id := by
            rw [hrid]
            exact hnp
          have hcf : ((c0 :: ct).map Place.id).contains prec.id = false := by
            simpa using hnm
          rw [List.filter_singleton, hcf]
          rfl
        rw [hA, hB, List.nil_append]
      unfold aggregate_hierarchy
      simp only [hpass, if_pos hcond]
      rw [hagg]
      rw [if_neg (by
        rintro ⟨_, hlen, _⟩
        simp at hlen)]
    · rw [if_neg hle]
      have hcond : ¬ (0 < store.childCount pid ∧ store.childCount pid ≤ (c0 :: ct).length) :=
        fun hand => hle hand.2
      have hagg : (c0 :: ct).filter (fun p => !(([] : List Nat).contains p.id)) = c0 :: ct := by
        simp
      unfold aggregate_hierarchy
      simp only [hpass, if_neg hcond]
      rw [hagg]
      rw [if_neg (by
        rintro ⟨hne, _⟩
        exact hne rfl)]

/-- Parent record used in the full-coverage witness. -/
def precW : Place := ⟨10, "P", 1, none⟩

/-- Store for the full-coverage witness: parent 10 has exactly 3 true
children. -/
def storeC5 : RefStore :=
  ⟨fun pid => if pid = 10 then 3 else 0, fun pid => if pid = 10 then some precW else none⟩

/-- Claim C5 witness: all 3 of the 3 true children of parent 10 present and
nothing else aggregates to exactly the parent record. -/
theorem aggregate_full_coverage_witness :
    aggregate_hierarchy storeC5 1 [⟨1, "a", 2, some 10⟩, ⟨2, "b", 2, some 10⟩,
      ⟨3, "c", 2, some 10⟩] =
      (if storeC5.childCount 10 ≤ [(⟨1, "a", 2, some 10⟩ : Place), ⟨2, "b", 2, some 10⟩,
        ⟨3, "c", 2, some 10⟩].length then [precW] else [⟨1, "a", 2, some 10⟩,
        ⟨2, "b", 2, some 10⟩, ⟨3, "c", 2, some 10⟩]) ∧
    aggregate_hierarchy storeC5 1 [⟨1, "a", 2, some 10⟩, ⟨2, "b", 2, some 10⟩,
      ⟨3, "c", 2, some 10⟩] = [precW] := by
  constructor
  · exact aggregate_full_coverage storeC5 10 precW _ 0 (by decide) (by decide) (by decide)
      (by decide) (by decide) (by decide)
  · decide

/-- Store with a failed count lookup: `get_children_counts_batch` returned an
empty map, so every `actual_child_counts.get(parent_id, 0)` is 0. -/
def storeZero : RefStore :=
  ⟨fun _ => 0, fun pid => if pid = 10 then some precW else none⟩

/-- Claim C5 counterexample: with a recorded total child count of 0, a child
of parent 10 is present (1 >= 0 children), yet the parent is not promoted:
the code requires a positive total count, so promotion does not happen
exactly when present-count >= recorded total. -/
theorem aggregate_zero_total_not_promoted :
    aggregate_hierarchy storeZero 1 [⟨1, "a", 2, some 10⟩] = [⟨1, "a", 2, some 10⟩] ∧
    storeZero.childCount 10 = 0 ∧
    storeZero.childCount 10 ≤ [(⟨1, "a", 2, some 10⟩ : Place)].length ∧
    precW ∉ aggregate_hierarchy storeZero 1 [⟨1, "a", 2, some 10⟩] := by
  refine ⟨by decide, rfl, by decide, by decide⟩

/-
DirectionalParser (services/directional_parser.py).

The nine pre-compiled direction regexes are embedded as explicit token
sequences over characters: a pattern is a list of alternatives, an
alternative a sequence of case-insensitive literals, an optional
whitespace-or-hyphen ([\s-]?) and an optional literal suffix ((?:ern)?),
wrapped in word boundaries. Optional tokens are matched greedily with a
fallback, exactly as the backtracking regex engine does; the trailing word
boundary is checked once on the greedy result, which coincides with full
backtracking on these patterns because the skipped optional text itself
starts with a word character. Matching is over ASCII text.
-/

inductive Direction
  | north
  | south
  | east
  | west
  | central
  | northeast
  | northwest
  | southeast
  | southwest
deriving DecidableEq, Repr

/-- The `.value` strings of the Python `Direction` enum. -/
def Direction.value : Direction → String
  | .north => "north"
  | .south => "south"
  | .east => "east"
  | .west => "west"
  | .central => "central"
  | .northeast => "north-eastern"
  | .northwest => "north-western"
  | .southeast => "south-eastern"
  | .southwest => "south-western"

/-- Python `str.strip()`. -/
def pyStrip (s : String) : String :=
  String.mk (((s.toList.dropWhile Char.isWhitespace).reverse.dropWhile
    Char.isWhitespace).reverse)

/-- Python regex word character ([a-zA-Z0-9_] over ASCII input). -/
def isWordChar (c : Char) : Bool := c.isAlpha || c.isDigit || c == '_'

/-- Case-insensitive literal prefix strip. -/
def stripCI : List Char → List Char → Option (List Char)
  | [], cs => some cs
  | _ :: _, [] => none
  | p :: ps, c :: cs => if p.toLower == c.toLower then stripCI ps cs else none

inductive RTok
  | lit : List Char → RTok
  | osd : RTok
  | opt : List Char → RTok

/-- Match a token sequence at the head of the text, returning the rest;
optional tokens ([\s-]? and (?:ern)?) try the consuming branch first and fall
back, like the greedy backtracking regex engine. -/
def matchSeq : List RTok → List Char → Option (List Char)
  | [], cs => some cs
  | RTok.lit s :: rest, cs =>
    match stripCI s cs with
    | some cs2 => matchSeq rest cs2
    | none => none
  | RTok.osd :: rest, cs =>
    match cs with
    | [] => matchSeq rest []
    | c :: cs2 =>
      if c.isWhitespace || c == '-' then
        match matchSeq rest cs2 with
        | some r => some r
        | none => matchSeq rest cs
      else matchSeq rest cs
  | RTok.opt s :: rest, cs =>
    match stripCI s cs with
    | some cs2 =>
      match matchSeq rest cs2 with
      | some r => some r
      | none => matchSeq rest cs
    | none => matchSeq rest cs

/-- Match one alternative at the current position and check the trailing word
boundary, returning the matched length. -/
def matchAltEnd (alt : List RTok) (cs : List Char) : Option Nat :=
  match matchSeq alt cs with
  | some rest =>
    match rest with
    | c :: _ => if isWordChar c then none else some (cs.length - rest.length)
    | [] => some (cs.length - rest.length)
  | none => none

/-- Match one alternative at the current position with the leading word
boundary (`prev` is the character before the position, none at the start). -/
def matchAltAt (alt : List RTok) (prev : Option Char) (cs : List Char) : Option Nat :=
  match prev with
  | some c => if isWordChar c then none else matchAltEnd alt cs
  | none => matchAltEnd alt cs

/-- First alternative that matches at the current position, in pattern
order. -/
def findMatchLen (alts : List (List RTok)) (prev : Option Char) (cs : List Char) :
    Option Nat :=
  match alts with
  | [] => none
  | alt :: rest =>
    match matchAltAt alt prev cs with
    | some n => some n
    | none => findMatchLen rest prev cs

/-- Embedding of `pattern.search`: does the pattern match at any position? Fuel counts scan
steps; the top-level call supplies length + 1, which is exact. -/
def searchGo (alts : List (List RTok)) : Nat → Option Char → List Char → Bool
  | 0, _, _ => false
  | _ + 1, _, [] => false
  | fuel + 1, prev, c :: cs =>
    if (findMatchLen alts prev (c :: cs)).isSome then true
    else searchGo alts fuel (some c) cs

def patSearch (alts : List (List RTok)) (cs : List Char) : Bool :=
  searchGo alts (cs.length + 1) none cs

/-- Embedding of `pattern.sub` with an empty replacement: remove every
non-overlapping match, scanning left
to right; word boundaries are evaluated against the original characters, so
`prev` after a removal is the last removed character. -/
def subAllGo (alts : List (List RTok)) : Nat → Option Char → List Char → List Char
  | 0, _, cs => cs
  | _ + 1, _, [] => []
  | fuel + 1, prev, c :: cs =>
    match findMatchLen alts prev (c :: cs) with
    | some n =>
      if n = 0 then c :: subAllGo alts fuel (some c) cs
      else subAllGo alts fuel ((c :: cs).take n).getLast? ((c :: cs).drop n)
    | none => c :: subAllGo alts fuel (some c) cs

def subAll (alts : List (List RTok)) (cs : List Char) : List Char :=
  subAllGo alts (cs.length + 1) none cs

def dirWord (w : String) : RTok := RTok.lit w.toList

def dirOpt (w : String) : RTok := RTok.opt w.toList

/-- Embedding of `DirectionalParser._DIRECTION_PATTERNS` in priority order: compound
directions before simple ones, central/middle last. -/
def directionPatterns : List (Direction × List (List RTok)) :=
  [ (Direction.northeast, [[dirWord ("north"), RTok.osd, dirWord ("east"), dirOpt ("ern")]]),
    (Direction.northwest, [[dirWord ("north"), RTok.osd, dirWord ("west"), dirOpt ("ern")]]),
    (Direction.southeast, [[dirWord ("south"), RTok.osd, dirWord ("east"), dirOpt ("ern")]]),
    (Direction.southwest, [[dirWord ("south"), RTok.osd, dirWord ("west"), dirOpt ("ern")]]),
    (Direction.north, [[dirWord ("north"), dirOpt ("ern")]]),
    (Direction.south, [[dirWord ("south"), dirOpt ("ern")]]),
    (Direction.east, [[dirWord ("east"), dirOpt ("ern")]]),
    (Direction.west, [[dirWord ("west"), dirOpt ("ern")]]),
    (Direction.central, [[dirWord ("central")], [dirWord ("middle")]]) ]

/-- Leading whitespace run length. -/
def wsCount : List Char → Nat
  | [] => 0
  | c :: cs => if c.isWhitespace then wsCount cs + 1 else 0

/-- One alternative of `_CONJUNCTION_PATTERN` of the form \s+word\s+ at the
current position (the word matched case-insensitively). -/
def sepWordAlt (w : String) (cs : List Char) : Option Nat :=
  let n1 := wsCount cs
  if n1 = 0 then none
  else
    match stripCI w.toList (cs.drop n1) with
    | some rest =>
      let n2 := wsCount rest
      if n2 = 0 then none else some (n1 + w.length + n2)
    | none => none

/-- The `,\s*` alternative. -/
def sepCommaAlt (cs : List Char) : Option Nat :=
  match cs with
  | ',' :: rest => some (1 + wsCount rest)
  | _ => none

/-- Embedding of `_CONJUNCTION_PATTERN = \s+and\s+|\s+or\s+|,\s*`, alternatives tried in
order at each position. -/
def sepLen (cs : List Char) : Option Nat :=
  match sepWordAlt ("and") cs with
  | some n => some n
  | none =>
    match sepWordAlt ("or") cs with
    | some n => some n
    | none => sepCommaAlt cs

/-- Embedding of `re.split` on the conjunction pattern: scan left to right, cutting a part
at each separator match. -/
def splitGo : Nat → List Char → List Char → List (List Char)
  | 0, acc, cs => [acc.reverse ++ cs]
  | _ + 1, acc, [] => [acc.reverse]
  | fuel + 1, acc, c :: cs =>
    match sepLen (c :: cs) with
    | some n =>
      if n = 0 then splitGo fuel (c :: acc) cs
      else acc.reverse :: splitGo fuel [] ((c :: cs).drop n)
    | none => splitGo fuel (c :: acc) cs

/-- Embedding of `DirectionalParser._split_places` (lines 97-116): split on conjunctions
and commas, strip each part, drop blank parts. -/
def split_places (text : String) : List String :=
  if pyStrip text = "" then []
  else
    ((splitGo (text.toList.length + 1) [] text.toList).map
      (fun l => pyStrip (String.mk l))).filter (fun p => p != "")

/-- Embedding of `DirectionalParser.parse` (lines 51-95): strip, find the first direction
pattern with a match, remove all its occurrences, strip, and split the
remainder into place names; with no direction the stripped input is returned
whole as the single place name. -/
def parse (location_string : String) : Option Direction × List String :=
  if pyStrip location_string = "" then (none, [])
  else
    let t := pyStrip location_string
    let cs := t.toList
    match directionPatterns.find? (fun dp => patSearch dp.2 cs) with
    | none => (none, [t])
    | some (d, alts) => (some d, split_places (pyStrip (String.mk (subAll alts cs))))

/-
Claim C2.
-/

/-- Claim C2 counterexample: `parse("Central X and Y")` yields the two place
names "X" and "Y", not the single remainder "X and Y": after a direction is
detected the remainder is split on conjunctions. -/
theorem parse_splits_conjunctions :
    parse ("Central X and Y") = (some Direction.central, ["X", "Y"]) ∧
    (parse ("Central X and Y")).2 ≠ ["X and Y"] := by
  refine ⟨by decide, by decide⟩

/-- Claim C2 (amended): when a direction is detected the parser splits the
remainder on conjunctions and commas and can return several place names
("Central X and Y" gives ["X", "Y"], and the docstring example "Central Sindh
and Balochistan" gives ["Sindh", "Balochistan"]); only direction-less input
is returned whole as a single place name. -/
theorem parse_conjunction_behavior :
    parse ("Central X and Y") = (some Direction.central, ["X", "Y"]) ∧
    parse ("Central Sindh and Balochistan") =
      (some Direction.central, ["Sindh", "Balochistan"]) ∧
    parse ("X and Y") = (none, ["X and Y"]) := by
  refine ⟨by decide, by decide, by decide⟩

/-
GeocodingService orchestration (geocoding_service.py lines 42-367).

The collaborators awaited by the orchestrator are an environment:
`matcherMatch` is NameMatcher.match, which can itself raise (for instance a
KeyError on a malformed candidate row), so it returns `Except`;
`geocode`, `findByCoordinates`, `suggestions` and `findPlacesInDirection`
catch their own exceptions internally (see places_repository.py and
external_geocoder.py) and so are total. A raised exception anywhere in the
per-location body is an `Except.error`, which `geocode_location` converts
into an error result at its try/except boundary. Numeric formatting inside
error message strings is elided. The field-validation loop over directional
results (lines 311-330) keeps every well-formed record and is the identity
here.
-/

structure GeocodeOptions where
  prefer_lower_admin_levels : Bool
  include_confidence_scores : Bool
deriving DecidableEq, Repr

/-- The dict returned by `NameMatcher.match` on success. -/
structure NameMatch where
  id : Nat
  name : String
  hierarchy_level : Int
  match_method : String
  confidence : ℚ
deriving DecidableEq, Repr

structure MatchedPlace where
  id : Nat
  name : String
  hierarchy_level : Int
  match_method : String
  confidence : Option ℚ
deriving DecidableEq, Repr

structure GeocodeResult where
  input : String
  matched_places : List MatchedPlace
  regions_processed : Option (List String)
  direction : Option String
  error : Option String
deriving DecidableEq, Repr

structure Env where
  matcherMatch : String → Except String (Option NameMatch)
  geocode : String → List (ℚ × ℚ)
  findByCoordinates : ℚ → ℚ → Option Place
  suggestions : String → List String
  findPlacesInDirection : List Nat → String → List Place
  store : RefStore

/-- Python truthiness of the optional `batch_context` argument: None and the
empty list are both falsy. -/
def ctxTruthy : Option (List (ℚ × ℚ)) → Bool
  | none => false
  | some l => !l.isEmpty

/-- Embedding of `GeocodingService._process_simple` (lines 121-215): fuzzy match, fallback
to external geocoding with optional suggestions, centroid disambiguation only
when there are at least two candidates and a truthy batch context, then
point-in-polygon. -/
def processSimple (env : Env) (original_input place_name : String)
    (options : GeocodeOptions) (batch_context : Option (List (ℚ × ℚ))) :
    Except String GeocodeResult :=
  match env.matcherMatch place_name with
  | .error e => .error e
  | .ok (some mt) =>
    .ok ⟨original_input,
      [⟨mt.id, mt.name, mt.hierarchy_level, mt.match_method,
        if options.include_confidence_scores then some mt.confidence else none⟩],
      none, none, none⟩
  | .ok none =>
    match env.geocode place_name with
    | [] =>
      .ok ⟨original_input, [], none, none,
        some (if (env.suggestions place_name).isEmpty then
          "No match found in database or external geocoding service"
        else
          "No match found. Did you mean: " ++
            String.intercalate (", ") (env.suggestions place_name) ++ "?")⟩
    | c0 :: cRest =>
      match (if 0 < cRest.length ∧ ctxTruthy batch_context = true then
          disambiguate_by_centroid (c0 :: cRest) (batch_context.getD [])
        else .ok c0) with
      | .error e => .error e
      | .ok selected =>
        match env.findByCoordinates selected.1 selected.2 with
        | none =>
          .ok ⟨original_input, [], none, none,
            some ("Coordinates not within Pakistan administrative boundaries")⟩
        | some p =>
          .ok ⟨original_input,
            [⟨p.id, p.name, p.hierarchy_level, "point_in_polygon", none⟩],
            none, none, none⟩

/-- The base-place matching loop of `_process_directional` (lines 256-277):
accumulate matched ids and names, skip failures, propagate raises. -/
def matchBasePlaces (env : Env) : List String → (List Nat × List String) →
    Except String (List Nat × List String)
  | [], acc => .ok acc
  | nm :: rest, acc =>
    match env.matcherMatch nm with
    | .error e => .error e
    | .ok (some mt) => matchBasePlaces env rest (acc.1 ++ [mt.id], acc.2 ++ [mt.name])
    | .ok none => matchBasePlaces env rest acc

/-- Embedding of `GeocodingService._process_directional` (lines 217-367). -/
def processDirectional (env : Env) (original_input : String) (direction : Direction)
    (place_names : List String) (options : GeocodeOptions) :
    Except String GeocodeResult :=
  if place_names.isEmpty then
    .ok ⟨original_input, [], none, none, some ("No place names found after parsing direction")⟩
  else
    match matchBasePlaces env place_names ([], []) with
    | .error e => .error e
    | .ok acc =>
      if acc.1.isEmpty then
        .ok ⟨original_input, [], none, none,
          some ("Could not match any base places: " ++
            String.intercalate (", ") place_names)⟩
      else
        match env.findPlacesInDirection acc.1 direction.value with
        | [] =>
          .ok ⟨original_input, [], some acc.2, some direction.value,
            some ("No places found in " ++ direction.value ++ " region of " ++
              String.intercalate (", ") acc.2)⟩
        | dp0 :: dpRest =>
          .ok ⟨original_input,
            (aggregate_hierarchy env.store ((dp0 :: dpRest).length + 1)
              (dp0 :: dpRest)).map (fun p =>
                ⟨p.id, p.name, p.hierarchy_level, "directional_intersection", none⟩),
            some acc.2, some direction.value, none⟩

/-- The body of the try block of `GeocodingService.geocode_location`
(lines 59-77): parse, then dispatch on the detected direction. -/
def geocodeLocationBody (env : Env) (location : String) (options : GeocodeOptions)
    (batch_context : Option (List (ℚ × ℚ))) : Except String GeocodeResult :=
  match parse location with
  | (some d, place_names) => processDirectional env location d place_names options
  | (none, place_names) =>
    processSimple env location
      (match place_names with
       | nm :: _ => nm
       | [] => location) options batch_context

/-- Embedding of `GeocodingService.geocode_location` (lines 42-85): any exception raised
during resolution is caught at this boundary and converted into an error
result for that location. -/
def geocodeLocation (env : Env) (location : String) (options : GeocodeOptions)
    (batch_context : Option (List (ℚ × ℚ))) : GeocodeResult :=
  match geocodeLocationBody env location options batch_context with
  | .ok r => r
  | .error e => ⟨location, [], none, none, some ("Geocoding failed: " ++ e)⟩

/-- Embedding of `GeocodingService.geocode_batch` (lines 87-119): strictly sequential loop
that calls `geocode_location(location, options, None)` for every location —
the batch context argument is always None. -/
def geocodeBatch (env : Env) (locations : List String) (options : GeocodeOptions) :
    List GeocodeResult :=
  locations.map (fun location => geocodeLocation env location options none)

theorem processSimple_input (env : Env) (original place_name : String)
    (opts : GeocodeOptions) (ctx : Option (List (ℚ × ℚ))) (r : GeocodeResult)
    (h : processSimple env original place_name opts ctx = .ok r) : r.input = original := by
  unfold processSimple at h
  repeat' split at h
  all_goals first
    | (injection h with h2
       subst h2
       rfl)
    | simp at h

theorem processDirectional_input (env : Env) (original : String) (d : Direction)
    (names : List String) (opts : GeocodeOptions) (r : GeocodeResult)
    (h : processDirectional env original d names opts = .ok r) : r.input = original := by
  unfold processDirectional at h
  repeat' split at h
  all_goals first
    | (injection h with h2
       subst h2
       rfl)
    | simp at h

theorem geocodeLocationBody_input (env : Env) (loc : String) (opts : GeocodeOptions)
    (ctx : Option (List (ℚ × ℚ))) (r : GeocodeResult)
    (h : geocodeLocationBody env loc opts ctx = .ok r) : r.input = loc := by
  unfold geocodeLocationBody at h
  cases hp : parse loc with
  | mk od names =>
    rw [hp] at h
    cases od with
    | some d => exact processDirectional_input env loc d names opts r h
    | none => exact processSimple_input env loc _ opts ctx r h

/-
Claim C7.
-/

/-- Claim C7: geocode_batch returns one result per input in input order; the
result at position i has that location as its input, is a function of the
environment and that location alone (so a failure of any other location
cannot affect it), and when the resolution body raises, the exception is
captured into the error field of that result with no matched places. -/
theorem geocode_batch_contract (env : Env) (locs : List String) (opts : GeocodeOptions)
    (i : Nat) (loc : String) (hi : locs[i]? = some loc) :
    (geocodeBatch env locs opts).length = locs.length ∧
    ∃ r, (geocodeBatch env locs opts)[i]? = some r ∧
      r.input = loc ∧
      (∀ e, geocodeLocationBody env loc opts none = .error e →
        r.matched_places = [] ∧ r.error = some ("Geocoding failed: " ++ e)) ∧
      ∀ (locs2 : List String) (j : Nat), locs2[j]? = some loc →
        (geocodeBatch env locs2 opts)[j]? = some r := by
  refine ⟨by simp [geocodeBatch], ?_⟩
  refine ⟨geocodeLocation env loc opts none, ?_, ?_, ?_, ?_⟩
  · simp [geocodeBatch, List.getElem?_map, hi]
  · unfold geocodeLocation
    cases hb : geocodeLocationBody env loc opts none with
    | ok r0 => exact geocodeLocationBody_input env loc opts none r0 hb
    | error e => rfl
  · intro e he
    unfold geocodeLocation
    rw [he]
    exact ⟨rfl, rfl⟩
  · intro locs2 j hj
    simp [geocodeBatch, List.getElem?_map, hj]

/-- Environment for the batch witness: the matcher raises on the location
"Bad" and finds nothing anywhere else. -/
def envBad : Env :=
  ⟨fun s => if s = "Bad" then .error ("boom") else .ok none,
    fun _ => [], fun _ _ => none, fun _ => [], fun _ _ => [],
    ⟨fun _ => 0, fun _ => none⟩⟩

/-- Claim C7 witness: the contract applied to a two-location batch whose
second location raises inside the matcher. -/
theorem geocode_batch_contract_witness :
    (geocodeBatch envBad ["Alpha", "Bad"] ⟨true, false⟩).length =
      (["Alpha", "Bad"] : List String).length ∧
    ∃ r, (geocodeBatch envBad ["Alpha", "Bad"] ⟨true, false⟩)[1]? = some r ∧
      r.input = "Bad" ∧
      (∀ e, geocodeLocationBody envBad ("Bad") ⟨true, false⟩ none = .error e →
        r.matched_places = [] ∧ r.error = some ("Geocoding failed: " ++ e)) ∧
      ∀ (locs2 : List String) (j : Nat), locs2[j]? = some ("Bad") →
        (geocodeBatch envBad locs2 ⟨true, false⟩)[j]? = some r :=
  geocode_batch_contract envBad ["Alpha", "Bad"] ⟨true, false⟩ 1 ("Bad") (by decide)

/-
Claim C3.
-/

def nearPlace : Place := ⟨100, "Near", 3, none⟩

def farPlace : Place := ⟨200, "Far", 3, none⟩

/-- Environment for the batch-context claim: fuzzy matching finds nothing,
"Alpha" geocodes to the single coordinate (0,0), "Beta" geocodes to the two
candidates (10,10) and (0,0) in relevance order, and point-in-polygon places
(0,0) in Near and (10,10) in Far. -/
def env3 : Env :=
  ⟨fun _ => .ok none,
    fun s =>
      if s = "Alpha" then [((0 : ℚ), (0 : ℚ))]
      else if s = "Beta" then [((10 : ℚ), (10 : ℚ)), ((0 : ℚ), (0 : ℚ))] else [],
    fun lon lat =>
      if lon = 0 ∧ lat = 0 then some nearPlace
      else if lon = 10 ∧ lat = 10 then some farPlace else none,
    fun _ => [], fun _ _ => [], ⟨fun _ => 0, fun _ => none⟩⟩

/-- Claim C3 evidence: in geocode_batch every location is resolved with
batch_context = None, so although "Beta" has two candidates and its batch
sibling "Alpha" already resolved to (0,0), "Beta" is resolved through its
first candidate (10,10) into the place Far (id 200); centroid disambiguation
against the sibling coordinate would have selected (0,0), whose containing
place is Near (id 100). -/
theorem geocode_batch_ignores_sibling_context :
    (geocodeBatch env3 ["Alpha", "Beta"] ⟨true, false⟩).map
      (fun r => r.matched_places.map (fun m => m.id)) = [[100], [200]] ∧
    disambiguate_by_centroid [((10 : ℚ), (10 : ℚ)), ((0 : ℚ), (0 : ℚ))]
      [((0 : ℚ), (0 : ℚ))] = .ok (0, 0) ∧
    env3.findByCoordinates 0 0 = some nearPlace := by
  have hpA : parse ("Alpha") = (none, ["Alpha"]) := by decide
  have hpB : parse ("Beta") = (none, ["Beta"]) := by decide
  refine ⟨?_, ?_, ?_⟩
  · have hne : ¬ ("Beta" : String) = "Alpha" := by decide
    norm_num [geocodeBatch, geocodeLocation, geocodeLocationBody, hpA, hpB,
      processSimple, env3, ctxTruthy, nearPlace, farPlace]
    rw [if_neg hne]
    norm_num
  · norm_num [disambiguate_by_centroid, pyMinByNE]
  · norm_num [env3]
